import Mathlib

/-!
Verification of the `trible-pile` content-addressed append-only blob store
(`src/lib.rs`).  The Rust code is shallowly embedded: bytes are `List Nat`
(values < 256), the 32-byte digest is a `Nat` (its little-endian 32-byte
encoding is written to disk), machine arithmetic that cannot overflow at the
modelled sizes is plain `Nat` arithmetic, and the digest function itself is a
parameter `D : Bytes → Hash` (the spec fixes one 256-bit cryptographic digest
but treats the choice as a parameter).  Fallible operations return `Except`;
operations that mutate the pile through `&mut self` or interior mutability
return the updated `Pile` alongside their result.  The `SystemTime::now`
wall-clock sample inside `insert_raw` is threaded as an explicit `now : Nat`
argument.  The read-only memory mapping of fixed maximum size is modelled by
`mmapRead`, which reads the file contents and supplies zero bytes beyond the
written length, exactly as the kernel supplies zero-filled pages.
-/

namespace TriblePile

/-- A byte string; each element is a byte value. -/
abbrev Bytes := List Nat

/-- `pub type Hash = [u8; 32]`, modelled as the little-endian value of the
32 bytes. -/
abbrev Hash := Nat

/-- `const MAGIC_MARKER: [u8; 16] = hex!("1E08B022FF2F47B6EBACF1D68EB35D96")`. -/
def MAGIC_MARKER : Bytes :=
  [0x1E, 0x08, 0xB0, 0x22, 0xFF, 0x2F, 0x47, 0xB6,
   0xEB, 0xAC, 0xF1, 0xD6, 0x8E, 0xB3, 0x5D, 0x96]

/-- Little-endian encoding of a `u64` field of the on-disk header. -/
def u64le (n : Nat) : Bytes := (List.range 8).map fun i => n / 256 ^ i % 256

/-- Little-endian encoding of the 32-byte `hash` field of the header. -/
def hash32le (h : Hash) : Bytes := (List.range 32).map fun i => h / 256 ^ i % 256

/-- Little-endian decoding of a byte string, used to read header fields back
when loading. -/
def decodeLE (bs : Bytes) : Nat := bs.foldr (fun b acc => b + 256 * acc) 0

instance {ε α : Type} [DecidableEq ε] [DecidableEq α] : DecidableEq (Except ε α)
  | .ok a, .ok b =>
    match decEq a b with
    | .isTrue h => .isTrue (h ▸ rfl)
    | .isFalse h => .isFalse fun hh => h (Except.ok.inj hh)
  | .error a, .error b =>
    match decEq a b with
    | .isTrue h => .isTrue (h ▸ rfl)
    | .isFalse h => .isFalse fun hh => h (Except.error.inj hh)
  | .ok _, .error _ => .isFalse fun hh => Except.noConfusion hh
  | .error _, .ok _ => .isFalse fun hh => Except.noConfusion hh

/-- `enum ValidationState { Unvalidated, Validated, Invalid }`. -/
inductive ValidationState where
  | Unvalidated
  | Validated
  | Invalid
deriving DecidableEq, Repr

/-- `struct IndexEntry { bytes: Bytes, state: ValidationState }`. -/
structure IndexEntry where
  bytes : Bytes
  state : ValidationState
deriving DecidableEq, Repr

/-- `struct Header { magic_marker, timestamp, length, hash }` (`repr(C)`,
packed little-endian fields, 64 bytes total). -/
structure Header where
  magic_marker : Bytes
  timestamp : Nat
  length : Nat
  hash : Hash

/-- `Header::new`. -/
def Header.new (timestamp length : Nat) (hash : Hash) : Header :=
  { magic_marker := MAGIC_MARKER, timestamp := timestamp, length := length, hash := hash }

/-- `header.as_bytes()`: the 64-byte serialized header. -/
def Header.asBytes (h : Header) : Bytes :=
  h.magic_marker ++ u64le h.timestamp ++ u64le h.length ++ hash32le h.hash

/-- `enum LoadError`. -/
inductive LoadError where
  | IoError
  | MagicMarkerError
  | HeaderError
  | UnexpectedEndOfFile
  | FileLengthError
  | PileTooLarge
deriving DecidableEq, Repr

/-- `enum InsertError`. -/
inductive InsertError where
  | IoError
  | PoisonError
  | PileTooLarge
deriving DecidableEq, Repr

/-- `enum GetError`. -/
inductive GetError where
  | PoisonError
  | ValidationError (bytes : Bytes)
deriving DecidableEq, Repr

/-- The pile state: the append file's tracked `length`, the file contents,
and the `HashMap<Hash, IndexEntry>` modelled as its lookup function.  The
compile-time `MAX_PILE_SIZE` parameter `S` is passed to each operation. -/
structure Pile where
  length : Nat
  fileData : Bytes
  index : Hash → Option IndexEntry

/-- `HashMap::insert`: the new binding supersedes any previous one. -/
def updateIndex (idx : Hash → Option IndexEntry) (h : Hash) (e : IndexEntry) :
    Hash → Option IndexEntry :=
  fun h' => if h' = h then some e else idx h'

/-- Reading `len` bytes of the fixed-size read-only mapping starting at
`off`: bytes beyond the written file contents read as zero (the kernel's
zero-filled pages). -/
def mmapRead (fileData : Bytes) (off len : Nat) : Bytes :=
  (List.range len).map fun i => fileData.getD (off + i) 0

/-- `Pile::insert_raw(hash, validation, value)`.  Under the file lock it
checks the size bound, advances the tracked length, appends
header ++ payload ++ padding to the file, derives the zero-copy view from the
mapping at offset `old_length` with length `value.len()` (the source takes
`self.mmap.as_ptr().offset(old_length)`), and registers that view in the
index under `hash`.  Returns the updated pile together with the written view
(`Err` leaves the pile exactly as it was, mirroring the early return). -/
def Pile.insert_raw (S now : Nat) (p : Pile) (hash : Hash)
    (validation : ValidationState) (value : Bytes) :
    Pile × Except InsertError Bytes :=
  let old_length := p.length
  let padding := 64 - value.length % 64
  let new_length := old_length + 64 + value.length + padding
  if new_length > S then
    (p, .error .PileTooLarge)
  else
    let header := Header.new now value.length hash
    let fileData := p.fileData ++ header.asBytes ++ value ++ List.replicate padding 0
    let written_bytes := mmapRead fileData old_length value.length
    ({ length := new_length
       fileData := fileData
       index := updateIndex p.index hash ⟨written_bytes, validation⟩ },
     .ok written_bytes)

/-- `Pile::insert(value)`: hash the payload with the digest `D` and delegate
to `insert_raw` with state `Validated`, returning the digest. -/
def Pile.insert (S now : Nat) (D : Bytes → Hash) (p : Pile) (value : Bytes) :
    Pile × Except InsertError Hash :=
  let hash := D value
  match Pile.insert_raw S now p hash .Validated value with
  | (p', .ok _) => (p', .ok hash)
  | (p', .error e) => (p', .error e)

/-- `Pile::insert_validated(hash, value)`: caller-asserted `Validated` insert. -/
def Pile.insert_validated (S now : Nat) (p : Pile) (hash : Hash) (value : Bytes) :
    Pile × Except InsertError Bytes :=
  Pile.insert_raw S now p hash .Validated value

/-- `Pile::insert_unvalidated(hash, value)`: lazy-checked insert. -/
def Pile.insert_unvalidated (S now : Nat) (p : Pile) (hash : Hash) (value : Bytes) :
    Pile × Except InsertError Bytes :=
  Pile.insert_raw S now p hash .Unvalidated value

/-- `Pile::get(hash)`: index lookup, then serve `Validated` entries as they
are, fail permanently on `Invalid` entries, and on `Unvalidated` entries
compute the digest of the stored view once, transitioning to `Validated` or
`Invalid`.  The state transition through the per-entry lock is modelled by
returning the updated pile. -/
def Pile.get (D : Bytes → Hash) (p : Pile) (hash : Hash) :
    Pile × Except GetError (Option Bytes) :=
  match p.index hash with
  | none => (p, .ok none)
  | some entry =>
    match entry.state with
    | .Validated => (p, .ok (some entry.bytes))
    | .Invalid => (p, .error (.ValidationError entry.bytes))
    | .Unvalidated =>
      let computed_hash := D entry.bytes
      if computed_hash ≠ hash then
        ({ p with index := updateIndex p.index hash ⟨entry.bytes, .Invalid⟩ },
         .error (.ValidationError entry.bytes))
      else
        ({ p with index := updateIndex p.index hash ⟨entry.bytes, .Validated⟩ },
         .ok (some entry.bytes))

/-- One iteration of the record-walking loop of `Pile::load`:
`view_prefix::<Header>` (fails, ending the loop, when fewer than 64 bytes
remain — `.ok none`), check the magic marker, decode the `length` and `hash`
header fields, `take_prefix(length)` for the payload, and skip
`64 - (length % 64)` padding bytes.  On success it yields the record's hash,
its payload view, and the remaining bytes. -/
def parseStep (bytes : Bytes) : Except LoadError (Option (Hash × Bytes × Bytes)) :=
  if bytes.length < 64 then .ok none
  else
    let header := bytes.take 64
    if header.take 16 = MAGIC_MARKER then
      let hash := decodeLE (header.drop 32)
      let length := decodeLE ((header.drop 24).take 8)
      let rest := bytes.drop 64
      if length ≤ rest.length then
        let blob := rest.take length
        let rest2 := rest.drop length
        if 64 - length % 64 ≤ rest2.length then
          .ok (some (hash, blob, rest2.drop (64 - length % 64)))
        else .error .UnexpectedEndOfFile
      else .error .UnexpectedEndOfFile
    else .error .MagicMarkerError

/-- The `while let` loop of `Pile::load`: run `parseStep` until it reports
the end of the readable window, registering
`IndexEntry { bytes: payload, state: Unvalidated }` under each record's hash —
a later record with the same digest supersedes an earlier one, exactly as
`HashMap::insert` does.  The loop is given explicit fuel; `bytes.length`
fuel always suffices because every iteration consumes at least 65 bytes. -/
def parseLoop (fuel : Nat) (bytes : Bytes) (idx : Hash → Option IndexEntry) :
    Except LoadError (Hash → Option IndexEntry) :=
  match fuel with
  | 0 => .ok idx
  | fuel + 1 =>
    match parseStep bytes with
    | .ok none => .ok idx
    | .ok (some (hash, blob, rest)) =>
      parseLoop fuel rest (updateIndex idx hash ⟨blob, .Unvalidated⟩)
    | .error e => .error e

/-- The same walk as `parseLoop`, but collecting the `(hash, payload)` pairs
of the records in file order instead of folding them into the index.  Used to
express what `load` registers. -/
def parseRecords (fuel : Nat) (bytes : Bytes) :
    Except LoadError (List (Hash × Bytes)) :=
  match fuel with
  | 0 => .ok []
  | fuel + 1 =>
    match parseStep bytes with
    | .ok none => .ok []
    | .ok (some (hash, blob, rest)) =>
      match parseRecords fuel rest with
      | .ok rs => .ok ((hash, blob) :: rs)
      | .error e => .error e
    | .error e => .error e

/-- Folding a record list into an index, later records superseding earlier
ones: exactly what the load loop's repeated `HashMap::insert` performs. -/
def applyRecords (idx : Hash → Option IndexEntry) (rs : List (Hash × Bytes)) :
    Hash → Option IndexEntry :=
  rs.foldl (fun i r => updateIndex i r.1 ⟨r.2, .Unvalidated⟩) idx

/-- `Pile::load(path)`, with the file's contents passed as `fileData`.  Fails
`PileTooLarge` when the file length exceeds `S`, then `FileLengthError` when
the length is not a multiple of 64, then walks the records.  Note that `load`
never invokes the digest function — it takes no digest parameter. -/
def Pile.load (S : Nat) (fileData : Bytes) : Except LoadError Pile :=
  if fileData.length > S then .error .PileTooLarge
  else if fileData.length % 64 ≠ 0 then .error .FileLengthError
  else
    match parseLoop fileData.length fileData (fun _ => none) with
    | .ok idx => .ok { length := fileData.length, fileData := fileData, index := idx }
    | .error e => .error e

/-- The freshly opened empty pile (a newly created file has length 0). -/
def emptyPile : Pile := { length := 0, fileData := [], index := fun _ => none }

/-- `impl Extend<Bytes> for Pile`: `for bytes in iter { let _ = self.insert(&bytes); }`.
Each element's result is discarded; on failure `insert` leaves the pile
unchanged and iteration continues with the next element. -/
def Pile.extendBytes (S now : Nat) (D : Bytes → Hash) (p : Pile)
    (items : List Bytes) : Pile :=
  items.foldl (fun q value => (Pile.insert S now D q value).1) p

/-- `impl Extend<(Hash, Bytes)> for Pile`:
`for (hash, bytes) in iter { let _ = self.insert_unvalidated(hash, &bytes); }`. -/
def Pile.extendHashed (S now : Nat) (p : Pile) (items : List (Hash × Bytes)) : Pile :=
  items.foldl (fun q hb => (Pile.insert_unvalidated S now q hb.1 hb.2).1) p

/-- Spec-side description of batch ingestion of blobs (§4.4.7): iterate the
collection in order, call `insert` on each element, discard the per-element
result and continue with the resulting pile. -/
def extendBytesSpec (S now : Nat) (D : Bytes → Hash) : Pile → List Bytes → Pile
  | p, [] => p
  | p, value :: rest =>
    match Pile.insert S now D p value with
    | (p', .ok _) => extendBytesSpec S now D p' rest
    | (p', .error _) => extendBytesSpec S now D p' rest

/-- Spec-side description of batch ingestion of `(digest, blob)` pairs
(§4.4.7): iterate in order, call `insert_unvalidated` on each pair, discard
the per-element result and continue. -/
def extendHashedSpec (S now : Nat) : Pile → List (Hash × Bytes) → Pile
  | p, [] => p
  | p, hb :: rest =>
    match Pile.insert_unvalidated S now p hb.1 hb.2 with
    | (p', .ok _) => extendHashedSpec S now p' rest
    | (p', .error _) => extendHashedSpec S now p' rest

/-- A simple injective-on-byte-strings executable digest used to instantiate
the digest parameter in concrete evaluations: the little-endian value of the
byte string. -/
def toyDigest (bs : Bytes) : Hash := decodeLE bs

/-- A digest function crafted to witness that `get` validates the bytes the
index actually stores, not the bytes the caller inserted: it maps the byte
string `[0x1E]` to `97` and everything else to `0`. -/
def spoofDigest (bs : Bytes) : Hash := if bs = [0x1E] then 97 else 0

/-- A well-formed 128-byte record as `insert_raw` frames it, used as a test
fixture for `load`. -/
def sampleRecord (h : Hash) (payload : Bytes) : Bytes :=
  (Header.new 0 payload.length h).asBytes ++ payload ++
    List.replicate (64 - payload.length % 64) 0

/-- A two-record pile file whose records carry the same digest `5` with
different payloads `[7]` and `[9]`. -/
def sampleFile : Bytes := sampleRecord 5 [7] ++ sampleRecord 5 [9]

/-- The pile obtained by loading `sampleFile` with `S = 1000`. -/
def samplePileLoaded : Pile :=
  match Pile.load 1000 sampleFile with
  | .ok p => p
  | .error _ => emptyPile

end TriblePile

namespace TriblePile

/-! Helper lemmas about the load loop and the index fold. -/

theorem applyRecords_cons (idx : Hash → Option IndexEntry) (r : Hash × Bytes)
    (rs : List (Hash × Bytes)) :
    applyRecords idx (r :: rs) =
      applyRecords (updateIndex idx r.1 ⟨r.2, .Unvalidated⟩) rs := rfl

/-- Folding records into the index is last-writer-wins: the entry at `h` is
the payload of the last record in order whose digest is `h` (the first one of
the reversed list), `Unvalidated`; when no record carries `h`, the starting
index decides. -/
theorem applyRecords_find (rs : List (Hash × Bytes)) :
    ∀ (idx : Hash → Option IndexEntry) (h : Hash),
      applyRecords idx rs h =
        match rs.reverse.find? (fun r => r.1 == h) with
        | some r => some ⟨r.2, .Unvalidated⟩
        | none => idx h := by
  induction rs with
  | nil => intro idx h; rfl
  | cons r rs ih =>
    intro idx h
    rw [applyRecords_cons, ih, List.reverse_cons, List.find?_append]
    cases hf : rs.reverse.find? (fun r' => r'.1 == h) with
    | some r' => simp [Option.or]
    | none =>
      simp only [Option.or]
      by_cases hrh : r.1 = h
      · simp [List.find?, hrh, updateIndex]
      · have h1 : (r.1 == h) = false := by simp [hrh]
        have h2 : ¬ (h = r.1) := fun hh => hrh hh.symm
        simp [List.find?, h1, h2, updateIndex]

/-- The load loop is the fold of `updateIndex` over the records that
`parseRecords` collects (with matching fuel on both sides). -/
theorem parseLoop_eq (fuel : Nat) :
    ∀ (bytes : Bytes) (idx : Hash → Option IndexEntry),
      parseLoop fuel bytes idx =
        (parseRecords fuel bytes).map (fun rs => applyRecords idx rs) := by
  induction fuel with
  | zero => intro bytes idx; rfl
  | succ fuel ih =>
    intro bytes idx
    simp only [parseLoop, parseRecords]
    cases hs : parseStep bytes with
    | error e => rfl
    | ok step =>
      cases step with
      | none => rfl
      | some rec =>
        obtain ⟨hash, blob, rest⟩ := rec
        show parseLoop fuel rest (updateIndex idx hash ⟨blob, .Unvalidated⟩) =
          Except.map (fun rs => applyRecords idx rs)
            (match parseRecords fuel rest with
             | .ok rs => .ok ((hash, blob) :: rs)
             | .error e => .error e)
        rw [ih]
        cases parseRecords fuel rest with
        | ok rs => rfl
        | error e => rfl

/-- C6: on a well-formed pile file, `load` registers every record in the
index with state `Unvalidated` and never computes a digest (`load` takes no
digest function at all); when several records carry the same digest, the
entry of the last record in file order is the one retained
(last-writer-wins).  Here `rs` is the record list of the file in order and
the retained entry at any digest `h` is the payload of the last record keyed
`h`, always `Unvalidated`. -/
theorem load_registers_unvalidated_lastWriterWins
    (S : Nat) (F : Bytes) (p : Pile) (rs : List (Hash × Bytes))
    (hp : Pile.load S F = .ok p)
    (hr : parseRecords F.length F = .ok rs) (h : Hash) :
    p.index h =
      match rs.reverse.find? (fun r => r.1 == h) with
      | some r => some ⟨r.2, .Unvalidated⟩
      | none => none := by
  unfold Pile.load at hp
  by_cases h1 : F.length > S
  · simp [h1] at hp
  · rw [if_neg h1] at hp
    by_cases h2 : F.length % 64 ≠ 0
    · simp [h2] at hp
    · rw [if_neg h2] at hp
      rw [parseLoop_eq, hr] at hp
      simp only [Except.map] at hp
      cases hp
      change applyRecords (fun _ => none) rs h = _
      rw [applyRecords_find]

set_option maxRecDepth 100000 in
/-- Witness for C6: loading the two-record `sampleFile`, whose records both
carry digest 5 with payloads `[7]` then `[9]`, retains the later payload
`[9]`, `Unvalidated`. -/
theorem load_lastWriterWins_witness :
    samplePileLoaded.index 5 = some ⟨[9], .Unvalidated⟩ :=
  (load_registers_unvalidated_lastWriterWins 1000 sampleFile samplePileLoaded
      [(5, [7]), (5, [9])] (by rfl) (by decide) 5).trans (by decide)

set_option maxRecDepth 10000 in
/-- Counterexample for C7: a 65-byte file is not 64-byte aligned, yet with
`S = 64` its `load` fails `PileTooLarge`, not `FileLengthError` — the size
check runs first, so the claim's second universal statement is false as
stated. -/
theorem load_misaligned_large_file_counterexample :
    (List.replicate 65 (0 : Nat)).length % 64 ≠ 0 ∧
    Pile.load 64 (List.replicate 65 0) ≠ .error .FileLengthError := by
  refine ⟨by decide, ?_⟩
  have h0 : Pile.load 64 (List.replicate 65 0) = .error .PileTooLarge := rfl
  rw [h0]
  intro h
  exact absurd (Except.error.inj h) (by decide)

/-- C7 (amended): `load` fails `PileTooLarge` for every file whose length
exceeds `S`, and fails `FileLengthError` for every file whose length is at
most `S` and is not a multiple of 64 (the size check precedes the alignment
check). -/
theorem load_size_and_alignment_errors (S : Nat) (F : Bytes) :
    (F.length > S → Pile.load S F = .error .PileTooLarge) ∧
    (F.length ≤ S → F.length % 64 ≠ 0 → Pile.load S F = .error .FileLengthError) := by
  constructor
  · intro h
    unfold Pile.load
    rw [if_pos h]
  · intro h1 h2
    unfold Pile.load
    rw [if_neg (by omega : ¬ F.length > S), if_pos h2]

set_option maxRecDepth 10000 in
/-- Witness for C7 (amended): a 128-byte file over `S = 64` fails
`PileTooLarge`; a 65-byte file under `S = 1000` fails `FileLengthError`. -/
theorem load_size_and_alignment_errors_witness :
    Pile.load 64 (List.replicate 128 0) = .error .PileTooLarge ∧
    Pile.load 1000 (List.replicate 65 0) = .error .FileLengthError :=
  ⟨(load_size_and_alignment_errors 64 (List.replicate 128 0)).1 (by decide),
   (load_size_and_alignment_errors 1000 (List.replicate 65 0)).2 (by decide) (by decide)⟩

end TriblePile

namespace TriblePile

/-- When the framed size pushed past `S`, `insert_raw` fails `PileTooLarge`
with the pile untouched (the early return precedes every mutation). -/
theorem insert_raw_big (S now : Nat) (p : Pile) (hash : Hash)
    (st : ValidationState) (value : Bytes)
    (hbig : p.length + 64 + value.length + (64 - value.length % 64) > S) :
    Pile.insert_raw S now p hash st value = (p, .error .PileTooLarge) := by
  unfold Pile.insert_raw
  simp only [hbig, if_true]

/-- When the framed record fits, `insert_raw` advances the length by the
framed size, appends header ++ payload ++ padding, and registers the view it
reads from the mapping at offset `old_length` under `hash`. -/
theorem insert_raw_ok (S now : Nat) (p : Pile) (hash : Hash) (st : ValidationState)
    (value : Bytes)
    (hfit : p.length + 64 + value.length + (64 - value.length % 64) ≤ S) :
    Pile.insert_raw S now p hash st value =
      ({ length := p.length + 64 + value.length + (64 - value.length % 64),
         fileData := p.fileData ++ (Header.new now value.length hash).asBytes ++
           value ++ List.replicate (64 - value.length % 64) 0,
         index := updateIndex p.index hash
           ⟨mmapRead (p.fileData ++ (Header.new now value.length hash).asBytes ++
               value ++ List.replicate (64 - value.length % 64) 0) p.length value.length,
             st⟩ },
       .ok (mmapRead (p.fileData ++ (Header.new now value.length hash).asBytes ++
           value ++ List.replicate (64 - value.length % 64) 0) p.length value.length)) := by
  unfold Pile.insert_raw
  simp only [Nat.not_lt.mpr hfit, if_false]

/-- C4: for every pile state and every payload whose framed size
(64 + length + padding) added to the current length exceeds `S`, all the
insert entry points (`insert_raw`, `insert`, `insert_validated`,
`insert_unvalidated`) fail with `PileTooLarge` and leave the pile — its
tracked file length, file contents and index — exactly unchanged. -/
theorem insert_too_large_leaves_pile_unchanged (S now : Nat) (D : Bytes → Hash)
    (p : Pile) (hash : Hash) (st : ValidationState) (value : Bytes)
    (hbig : p.length + 64 + value.length + (64 - value.length % 64) > S) :
    Pile.insert_raw S now p hash st value = (p, .error .PileTooLarge) ∧
    Pile.insert S now D p value = (p, .error .PileTooLarge) ∧
    Pile.insert_validated S now p hash value = (p, .error .PileTooLarge) ∧
    Pile.insert_unvalidated S now p hash value = (p, .error .PileTooLarge) := by
  refine ⟨insert_raw_big S now p hash st value hbig, ?_, ?_, ?_⟩
  · simp only [Pile.insert]
    rw [insert_raw_big S now p (D value) .Validated value hbig]
  · exact insert_raw_big S now p hash .Validated value hbig
  · exact insert_raw_big S now p hash .Unvalidated value hbig

/-- Witness for C4: with `S = 64` even the empty blob (framed size 128) is
refused by every insert entry point and the empty pile stays empty. -/
theorem insert_too_large_witness :
    Pile.insert_raw 64 0 emptyPile 1 .Validated [] = (emptyPile, .error .PileTooLarge) ∧
    Pile.insert 64 0 toyDigest emptyPile [] = (emptyPile, .error .PileTooLarge) ∧
    Pile.insert_validated 64 0 emptyPile 1 [] = (emptyPile, .error .PileTooLarge) ∧
    Pile.insert_unvalidated 64 0 emptyPile 1 [] = (emptyPile, .error .PileTooLarge) :=
  insert_too_large_leaves_pile_unchanged 64 0 toyDigest emptyPile 1 .Validated [] (by decide)

/-- C8: inserting a zero-length blob succeeds whenever it fits within `S` and
appends exactly one 128-byte record — a 64-byte header, a 0-byte payload and
64 bytes of zero padding — advancing the tracked file length by exactly
128. -/
theorem insert_zero_length_blob (S now : Nat) (D : Bytes → Hash) (p : Pile)
    (hfit : p.length + 128 ≤ S) :
    (Pile.insert S now D p []).2 = .ok (D []) ∧
    (Pile.insert S now D p []).1.length = p.length + 128 ∧
    (Pile.insert S now D p []).1.fileData =
      p.fileData ++ (Header.new now 0 (D [])).asBytes ++ List.replicate 64 0 ∧
    ((Header.new now 0 (D [])).asBytes).length = 64 := by
  have h0 := insert_raw_ok S now p (D []) .Validated []
    (by simp only [List.length_nil]; omega)
  simp only [Pile.insert]
  rw [h0]
  refine ⟨rfl, ?_, ?_, ?_⟩
  · show p.length + 64 + 0 + (64 - 0 % 64) = p.length + 128
    omega
  · show p.fileData ++ (Header.new now 0 (D [])).asBytes ++ [] ++
        List.replicate (64 - 0 % 64) 0 =
      p.fileData ++ (Header.new now 0 (D [])).asBytes ++ List.replicate 64 0
    simp
  · simp [Header.asBytes, Header.new, u64le, hash32le, MAGIC_MARKER]

/-- Witness for C8: inserting the empty blob into the empty pile with
`S = 1000` succeeds and produces the single 128-byte record. -/
theorem insert_zero_length_blob_witness :
    (Pile.insert 1000 0 toyDigest emptyPile []).2 = .ok (toyDigest []) ∧
    (Pile.insert 1000 0 toyDigest emptyPile []).1.length = emptyPile.length + 128 ∧
    (Pile.insert 1000 0 toyDigest emptyPile []).1.fileData =
      emptyPile.fileData ++ (Header.new 0 0 (toyDigest [])).asBytes ++ List.replicate 64 0 ∧
    ((Header.new 0 0 (toyDigest [])).asBytes).length = 64 :=
  insert_zero_length_blob 1000 0 toyDigest emptyPile (by decide)

end TriblePile

namespace TriblePile

/-- Unrolling the spec-side iteration over one blob: insert it, discard the
result, continue with the resulting pile. -/
theorem extendBytesSpec_cons (S now : Nat) (D : Bytes → Hash) (p : Pile)
    (value : Bytes) (rest : List Bytes) :
    extendBytesSpec S now D p (value :: rest) =
      extendBytesSpec S now D (Pile.insert S now D p value).1 rest := by
  conv_lhs => unfold extendBytesSpec
  rcases hi : Pile.insert S now D p value with ⟨p', r⟩
  cases r <;> rfl

/-- Unrolling the spec-side iteration over one `(digest, blob)` pair. -/
theorem extendHashedSpec_cons (S now : Nat) (p : Pile) (hb : Hash × Bytes)
    (rest : List (Hash × Bytes)) :
    extendHashedSpec S now p (hb :: rest) =
      extendHashedSpec S now (Pile.insert_unvalidated S now p hb.1 hb.2).1 rest := by
  conv_lhs => unfold extendHashedSpec
  rcases hi : Pile.insert_unvalidated S now p hb.1 hb.2 with ⟨p', r⟩
  cases r <;> rfl

theorem extendBytes_eq_spec (S now : Nat) (D : Bytes → Hash) :
    ∀ (items : List Bytes) (p : Pile),
      Pile.extendBytes S now D p items = extendBytesSpec S now D p items := by
  intro items
  induction items with
  | nil => intro p; rfl
  | cons value rest ih =>
    intro p
    show Pile.extendBytes S now D (Pile.insert S now D p value).1 rest =
      extendBytesSpec S now D p (value :: rest)
    rw [extendBytesSpec_cons]
    exact ih _

theorem extendHashed_eq_spec (S now : Nat) :
    ∀ (pairs : List (Hash × Bytes)) (p : Pile),
      Pile.extendHashed S now p pairs = extendHashedSpec S now p pairs := by
  intro pairs
  induction pairs with
  | nil => intro p; rfl
  | cons hb rest ih =>
    intro p
    show Pile.extendHashed S now (Pile.insert_unvalidated S now p hb.1 hb.2).1 rest =
      extendHashedSpec S now p (hb :: rest)
    rw [extendHashedSpec_cons]
    exact ih _

/-- C9: extending a pile with a collection of blobs (respectively of
`(digest, blob)` pairs) yields the same pile state as iterating the
collection in order and calling `insert` (respectively `insert_unvalidated`)
on each element, discarding each per-element result and continuing. -/
theorem extend_eq_iterated_inserts (S now : Nat) (D : Bytes → Hash) (p q : Pile)
    (items : List Bytes) (pairs : List (Hash × Bytes)) :
    Pile.extendBytes S now D p items = extendBytesSpec S now D p items ∧
    Pile.extendHashed S now q pairs = extendHashedSpec S now q pairs :=
  ⟨extendBytes_eq_spec S now D items p, extendHashed_eq_spec S now pairs q⟩

/-- C10: `get` leaves the tracked file length, the file contents, every
entry keyed by another digest, and the presence of the entry keyed by the
queried digest unchanged; the entry it returns keeps its bytes view, and its
state either stays what it was or moves from `Unvalidated` to `Validated` or
to `Invalid`. -/
theorem get_frame (D : Bytes → Hash) (p : Pile) (hash : Hash) :
    (Pile.get D p hash).1.length = p.length ∧
    (Pile.get D p hash).1.fileData = p.fileData ∧
    (∀ h', h' ≠ hash → (Pile.get D p hash).1.index h' = p.index h') ∧
    ((Pile.get D p hash).1.index hash).isSome = (p.index hash).isSome ∧
    (∀ e e', p.index hash = some e → (Pile.get D p hash).1.index hash = some e' →
      e'.bytes = e.bytes ∧
      (e'.state = e.state ∨
        (e.state = .Unvalidated ∧
          (e'.state = .Validated ∨ e'.state = .Invalid)))) := by
  cases hidx : p.index hash with
  | none =>
    have hg : Pile.get D p hash = (p, .ok none) := by
      simp only [Pile.get, hidx]
    rw [hg]
    refine ⟨rfl, rfl, fun h' _ => rfl, ?_, ?_⟩
    · show (p.index hash).isSome = (none : Option IndexEntry).isSome
      rw [hidx]
    · intro e e' he
      exact absurd he (by simp)
  | some entry =>
    cases hst : entry.state with
    | Validated =>
      have hg : Pile.get D p hash = (p, .ok (some entry.bytes)) := by
        simp only [Pile.get, hidx, hst]
      rw [hg]
      refine ⟨rfl, rfl, fun h' _ => rfl, ?_, ?_⟩
      · show (p.index hash).isSome = (some entry).isSome
        rw [hidx]
      · intro e e' he he'
        cases he
        have he2 : p.index hash = some e' := he'
        rw [hidx] at he2
        cases he2
        exact ⟨rfl, .inl rfl⟩
    | Invalid =>
      have hg : Pile.get D p hash = (p, .error (.ValidationError entry.bytes)) := by
        simp only [Pile.get, hidx, hst]
      rw [hg]
      refine ⟨rfl, rfl, fun h' _ => rfl, ?_, ?_⟩
      · show (p.index hash).isSome = (some entry).isSome
        rw [hidx]
      · intro e e' he he'
        cases he
        have he2 : p.index hash = some e' := he'
        rw [hidx] at he2
        cases he2
        exact ⟨rfl, .inl rfl⟩
    | Unvalidated =>
      by_cases hD : D entry.bytes = hash
      · have hg : Pile.get D p hash =
            ({ p with index := updateIndex p.index hash ⟨entry.bytes, .Validated⟩ },
             .ok (some entry.bytes)) := by
          simp only [Pile.get, hidx, hst]
          simp [hD]
        rw [hg]
        refine ⟨rfl, rfl, fun h' hne => ?_, ?_, ?_⟩
        · show updateIndex p.index hash ⟨entry.bytes, .Validated⟩ h' = p.index h'
          simp [updateIndex, hne]
        · show (updateIndex p.index hash ⟨entry.bytes, .Validated⟩ hash).isSome =
            (some entry).isSome
          simp [updateIndex]
        · intro e e' he he'
          cases he
          have he2 : updateIndex p.index hash ⟨entry.bytes, .Validated⟩ hash = some e' := he'
          simp only [updateIndex, if_pos rfl] at he2
          cases he2
          exact ⟨rfl, .inr ⟨hst, .inl rfl⟩⟩
      · have hg : Pile.get D p hash =
            ({ p with index := updateIndex p.index hash ⟨entry.bytes, .Invalid⟩ },
             .error (.ValidationError entry.bytes)) := by
          simp only [Pile.get, hidx, hst]
          simp [hD]
        rw [hg]
        refine ⟨rfl, rfl, fun h' hne => ?_, ?_, ?_⟩
        · show updateIndex p.index hash ⟨entry.bytes, .Invalid⟩ h' = p.index h'
          simp [updateIndex, hne]
        · show (updateIndex p.index hash ⟨entry.bytes, .Invalid⟩ hash).isSome =
            (some entry).isSome
          simp [updateIndex]
        · intro e e' he he'
          cases he
          have he2 : updateIndex p.index hash ⟨entry.bytes, .Invalid⟩ hash = some e' := he'
          simp only [updateIndex, if_pos rfl] at he2
          cases he2
          exact ⟨rfl, .inr ⟨hst, .inr rfl⟩⟩

/-- Witness for C10: a `get` for digest 3 on the empty pile leaves the
length and the unrelated index slot 4 unchanged. -/
theorem get_frame_witness :
    (Pile.get toyDigest emptyPile 3).1.length = emptyPile.length ∧
    (Pile.get toyDigest emptyPile 3).1.index 4 = emptyPile.index 4 :=
  ⟨(get_frame toyDigest emptyPile 3).1,
   (get_frame toyDigest emptyPile 3).2.2.1 4 (by decide)⟩

end TriblePile

namespace TriblePile

/-- C1: the round-trip `get(insert(b)) = b` fails on the code.  Inserting the
one-byte blob `[0x61]` into the empty pile under the digest `toyDigest`
(little-endian value of the bytes, so `toyDigest [0x61] = 97`) succeeds with
digest 97, but the following `get 97` returns `[0x1E]` — the first byte of
the record header (the magic marker) — because `insert_raw` derives the
zero-copy view from the mapping at offset `old_length` instead of
`old_length + 64`, so the indexed view covers the header, not the payload. -/
theorem insert_get_roundtrip_violated :
    (Pile.insert 1000 0 toyDigest emptyPile [0x61]).2 = .ok 97 ∧
    toyDigest [0x61] = 97 ∧
    (Pile.get toyDigest (Pile.insert 1000 0 toyDigest emptyPile [0x61]).1 97).2 =
      .ok (some [0x1E]) ∧
    ([0x1E] : Bytes) ≠ [0x61] := by decide

/-- C2: the view stored in the index and returned by `insert_raw` does not
cover the payload region `[old_len + 64, old_len + 64 + L)`.  Inserting
`[0x61]` at `old_len = 0` stores and returns `[0x1E]`, the byte at mapping
offset 0 (the header), while the byte at offset 64 — the actual payload
region — is `[0x61]`. -/
theorem insert_raw_view_offset_violated :
    (Pile.insert_raw 1000 0 emptyPile 97 .Validated [0x61]).2 = .ok [0x1E] ∧
    (Pile.insert_raw 1000 0 emptyPile 97 .Validated [0x61]).1.index 97 =
      some ⟨[0x1E], .Validated⟩ ∧
    mmapRead (Pile.insert_raw 1000 0 emptyPile 97 .Validated [0x61]).1.fileData 0 1 =
      [0x1E] ∧
    mmapRead (Pile.insert_raw 1000 0 emptyPile 97 .Validated [0x61]).1.fileData 64 1 =
      [0x61] ∧
    ([0x1E] : Bytes) ≠ [0x61] := by decide

/-- C3: invariant I4 is broken by a plain `insert`.  After inserting `[0x61]`
with digest `toyDigest` (which keys the entry at `97 = toyDigest [0x61]`),
the entry is in state `Validated` but holds the header byte `[0x1E]`, whose
digest is `30 ≠ 97` — so a `Validated` entry with `digest(bytes) ≠ h`
exists. -/
theorem invariant_I4_violated_by_insert :
    (Pile.insert 1000 0 toyDigest emptyPile [0x61]).1.index 97 =
      some ⟨[0x1E], .Validated⟩ ∧
    toyDigest [0x1E] ≠ 97 := by decide

/-- C5: poisoning fails on the code.  `insert_unvalidated 97 [0x61]` with
`spoofDigest [0x61] = 0 ≠ 97` stores the header byte `[0x1E]` instead of the
payload, and since `spoofDigest [0x1E] = 97`, the next `get 97` validates the
wrong bytes and returns them successfully — no `ValidationError` is ever
raised and the entry becomes `Validated`, not `Invalid`. -/
theorem poisoning_violated :
    spoofDigest [0x61] ≠ 97 ∧
    (Pile.get spoofDigest
        (Pile.insert_unvalidated 1000 0 emptyPile 97 [0x61]).1 97).2 =
      .ok (some [0x1E]) := by decide

end TriblePile
